import Mathlib

/-!
Shallow embedding of the Focus Lock core: the pattern-derivation engine
(`getCurrentStreak`, `getTodayRelapseCount`, `getWeeklyPattern`,
`getHourlyPattern`, `getRiskWindows`, `formatHour`), the settings lock
policy, the countdown-timer tick logic shared by the Focus Session and
Replacement Action screens, and the storage append/read operations.

Modelling conventions:
 - timestamps are epoch milliseconds as `Int`;
 - local calendar time is modelled at a fixed zero UTC offset with no DST,
   so `new Date(y, m, d).getTime()` (midnight of a timestamp's local day)
   becomes `msPerDay * (t.fdiv msPerDay)` and `getHours()` becomes
   `(t.fdiv msPerHour) % 24`; `Math.floor` of a real quotient of integers
   is `Int.fdiv`;
 - `Date.now()` and generated record ids are explicit parameters;
 - the JS sort `(a, b) => b.timestamp - a.timestamp` followed by `[0]` is
   the first element of maximal timestamp (JS `Array.prototype.sort` is
   stable), modelled by a fold keeping the first maximum;
 - `AsyncStorage.getItem` results and `JSON.parse` are explicit inputs: a
   read is `Option String` (null = missing) and a parser is
   `String -> Option _` (`none` = the parse throws).
-/

def msPerDay : Int := 1000 * 60 * 60 * 24

def msPerHour : Int := 1000 * 60 * 60

/-- Index of a timestamp's local calendar day (floor division, as
`Math.floor` in JS acts on the exact real quotient). -/
def dayIndex (t : Int) : Int := t.fdiv msPerDay

/-- Translation of `new Date(t.getFullYear(), t.getMonth(), t.getDate()).getTime()`:
midnight of the timestamp's local calendar day, in the fixed-offset model. -/
def dayStartOf (t : Int) : Int := msPerDay * (t.fdiv msPerDay)

/-- Translation of `new Date(t).getHours()` in the fixed-offset model: hour of day 0..23. -/
def hourOfDay (t : Int) : Nat := ((t.fdiv msPerHour).emod 24).toNat

inductive ReplacementAction where
  | physical
  | writing
  | breathing
deriving DecidableEq

structure RelapseLog where
  id : String
  timestamp : Int
  replacementAction : ReplacementAction
  journalEntry : Option String
deriving DecidableEq

structure Settings where
  focusDuration : Int
  unlockThreshold : Int
  isFirstSetup : Bool
deriving DecidableEq

structure FocusSession where
  id : String
  startTime : Int
  endTime : Int
  duration : Int
  completed : Bool
deriving DecidableEq

structure JournalEntry where
  id : String
  timestamp : Int
  content : String
  relapseLogId : String
deriving DecidableEq

/-- Head of `[...logs].sort((a, b) => b.timestamp - a.timestamp)`: the first
log of maximal timestamp (the JS sort is stable and descending). -/
def mostRecent : List RelapseLog → Option RelapseLog
  | [] => none
  | l :: ls =>
    some (ls.foldl (fun best x => if best.timestamp < x.timestamp then x else best) l)

/-- Source `getCurrentStreak` from the storage module: 0 on an empty list,
otherwise `Math.floor((today - lastRelapseDay) / 86400000)` where both
operands are midnight-aligned. -/
def getCurrentStreak (now : Int) (logs : List RelapseLog) : Int :=
  match logs with
  | [] => 0
  | _ :: _ =>
    match mostRecent logs with
    | none => 0
    | some lastRelapse =>
      let today := dayStartOf now
      let lastRelapseDay := dayStartOf lastRelapse.timestamp
      (today - lastRelapseDay).fdiv msPerDay

/-- Source `getTodayRelapseCount`: logs with timestamp in
`[todayStart, todayStart + 24h)`. -/
def getTodayRelapseCount (now : Int) (logs : List RelapseLog) : Nat :=
  let todayStart := dayStartOf now
  let todayEnd := todayStart + msPerDay
  (logs.filter (fun log => decide (todayStart ≤ log.timestamp ∧ log.timestamp < todayEnd))).length

structure WeekBucket where
  week : String
  count : Nat
deriving DecidableEq

/-- Source `getWeeklyPattern`: the source loops `i = weeks-1` down to `0`, so
iteration `k` of this map corresponds to `i = weeks - 1 - k`. `weekEnd` is
`new Date(y, m, d - i*7)` (midnight-aligned) and `weekStart` is exactly
`7*24h` earlier. -/
def getWeeklyPattern (now : Int) (logs : List RelapseLog) (weeks : Nat := 4) : List WeekBucket :=
  (List.range weeks).map (fun k =>
    let i := weeks - 1 - k
    let weekEnd := dayStartOf now - (i : Int) * 7 * msPerDay
    let weekStart := weekEnd - 7 * msPerDay
    let count :=
      (logs.filter (fun log => decide (weekStart ≤ log.timestamp ∧ log.timestamp < weekEnd))).length
    ⟨s!"W{weeks - i}", count⟩)

/-- Modelled from the spec: `weeklyPattern` with each window "ending at
`now - i*7days` and starting 7 days earlier" — the windows are anchored at
`now` itself, not at the midnight of `now`'s day. For comparison with
`getWeeklyPattern`. -/
def specWeeklyPattern (now : Int) (logs : List RelapseLog) (weeks : Nat := 4) : List WeekBucket :=
  (List.range weeks).map (fun k =>
    let i := weeks - 1 - k
    let weekEnd := now - (i : Int) * 7 * msPerDay
    let weekStart := weekEnd - 7 * msPerDay
    let count :=
      (logs.filter (fun log => decide (weekStart ≤ log.timestamp ∧ log.timestamp < weekEnd))).length
    ⟨s!"W{weeks - i}", count⟩)

/-- The increment `hourCounts[hour]++` on an array initialised with 24 zeros. -/
def bumpAt (counts : List Nat) (h : Nat) : List Nat :=
  counts.set h (counts.getD h 0 + 1)

/-- The `hourCounts` accumulation loop of `getHourlyPattern`. -/
def hourCountsList (logs : List RelapseLog) : List Nat :=
  logs.foldl (fun cs log => bumpAt cs (hourOfDay log.timestamp)) (List.replicate 24 0)

/-- Source `getHourlyPattern`: pairs `(hour, count)` in hour order. -/
def getHourlyPattern (logs : List RelapseLog) : List (Nat × Nat) :=
  (hourCountsList logs).enum

/-- Number of logs whose local hour of day is `h` (the value
`getHourlyPattern` computes for hour `h`; see `hourCountsList_getD`). -/
def hourCount (logs : List RelapseLog) (h : Nat) : Nat :=
  (logs.filter (fun log => decide (hourOfDay log.timestamp = h))).length

structure RiskWindow where
  start : Nat
  stop : Nat
  count : Nat
deriving DecidableEq

/-- The elevation test of `getRiskWindows` for one hour:
`count > avgCount * 1.5 && count >= 2` where `avgCount` is
`logs.length > 0 ? logs.length / 24 : 0`. `3 * total < 48 * count` is the
exact integer form of `count > (total / 24) * 1.5` (both sides scaled by
32; see `elevatedHour_iff_mean`), and it also covers the `total = 0`
branch, where both the source's guard and the scaled test degenerate to
`count > 0`. -/
def elevatedHour (total count : Nat) : Bool :=
  decide (3 * total < 48 * count) && decide (2 ≤ count)

/-- One iteration of the `hourlyPattern.forEach` loop of `getRiskWindows`:
state is `(riskWindows, currentWindow)`; the source field `end` is `stop`
here (`end` is a Lean keyword). -/
def riskStep (total : Nat) (st : List RiskWindow × Option RiskWindow) (hc : Nat × Nat) :
    List RiskWindow × Option RiskWindow :=
  let (hour, count) := hc
  if elevatedHour total count then
    match st.2 with
    | some w =>
      if hour = w.stop then (st.1, some ⟨w.start, hour + 1, w.count + count⟩)
      else (st.1 ++ [w], some ⟨hour, hour + 1, count⟩)
    | none => (st.1, some ⟨hour, hour + 1, count⟩)
  else
    match st.2 with
    | some w => (st.1 ++ [w], none)
    | none => (st.1, none)

/-- Stable insertion for `sort((a, b) => b.count - a.count)`: a window is
placed before the first existing window whose count is not larger. -/
def insertByCount (w : RiskWindow) : List RiskWindow → List RiskWindow
  | [] => [w]
  | x :: xs => if w.count < x.count then x :: insertByCount w xs else w :: x :: xs

/-- Stable descending-by-count sort (JS `Array.prototype.sort` is stable). -/
def sortByCountDesc : List RiskWindow → List RiskWindow
  | [] => []
  | w :: ws => insertByCount w (sortByCountDesc ws)

/-- The `riskWindows` array of `getRiskWindows` right before the final
sort: the merge loop folded over the hourly pattern, with the still-open
`currentWindow` flushed. Windows appear in first-found (ascending hour)
order. -/
def riskWindowsUnsorted (logs : List RelapseLog) : List RiskWindow :=
  let st := (getHourlyPattern logs).foldl (riskStep logs.length) ([], none)
  st.1 ++ (match st.2 with | some w => [w] | none => [])

/-- Source `getRiskWindows`: the merged windows sorted by count descending. -/
def getRiskWindows (logs : List RelapseLog) : List RiskWindow :=
  sortByCountDesc (riskWindowsUnsorted logs)

/-- Source `formatHour`: 12-hour clock display. -/
def formatHour (hour : Nat) : String :=
  if hour = 0 then ("12 AM")
  else if hour = 12 then ("12 PM")
  else if hour < 12 then s!"{hour} AM"
  else s!"{hour - 12} PM"

/-- The settings-locked decision of `HomeScreen`:
`!settings.isFirstSetup && streak < settings.unlockThreshold` (with a
non-null `settings`). -/
def isSettingsLocked (settings : Settings) (streak : Int) : Bool :=
  !settings.isFirstSetup && decide (streak < settings.unlockThreshold)

/-- The remaining time recomputed on every tick by both
`FocusSessionScreen` (with `totalSeconds = duration * 60`) and
`ReplacementActionScreen` (with `action.duration`):
`Math.max(0, total - Math.floor((Date.now() - start) / 1000))`. -/
def remainingAt (start : Int) (totalSeconds : Nat) (now : Int) : Int :=
  max 0 ((totalSeconds : Int) - (now - start).fdiv 1000)

/-- The timer state of either screen: the recorded start instant, the
committed duration, the `isComplete` flag and whether the interval is
still installed (`clearInterval` has not yet run). -/
structure TimerState where
  start : Int
  totalSeconds : Nat
  isComplete : Bool
  intervalActive : Bool
deriving DecidableEq

/-- One firing of the interval callback at instant `now`: while installed,
recompute the remaining time and, exactly when it is 0, set `isComplete`
and clear the interval. The returned `Bool` is the completion signal
(`setIsComplete(true)`). An uninstalled interval never fires again. -/
def timerTick (s : TimerState) (now : Int) : TimerState × Bool :=
  if s.intervalActive then
    if remainingAt s.start s.totalSeconds now = 0 then
      ({ s with isComplete := true, intervalActive := false }, true)
    else (s, false)
  else (s, false)

/-- Run a sequence of tick instants; returns the final state and how many
completion signals were emitted. -/
def runTicks (s : TimerState) : List Int → TimerState × Nat
  | [] => (s, 0)
  | t :: ts =>
    let step := timerTick s t
    let rest := runTicks step.1 ts
    (rest.1, (if step.2 then 1 else 0) + rest.2)

/-- The stored collections (the AsyncStorage keys the screens touch). -/
structure Store where
  relapseLogs : List RelapseLog
  focusSessions : List FocusSession
  journalEntries : List JournalEntry
deriving DecidableEq

/-- Source `getRelapseLogs`: `data ? JSON.parse(data) : []` inside `try/catch`
returning `[]`. `raw` is the `getItem` result (`none` = key missing; the
empty string is falsy in JS) and `parse` is `JSON.parse` (`none` = throw). -/
def getRelapseLogs (raw : Option String) (parse : String → Option (List RelapseLog)) :
    List RelapseLog :=
  match raw with
  | none => []
  | some data =>
    if data = "" then []
    else
      match parse data with
      | some logs => logs
      | none => []

/-- Source `getFocusSessions`, same read shape as `getRelapseLogs`. -/
def getFocusSessions (raw : Option String) (parse : String → Option (List FocusSession)) :
    List FocusSession :=
  match raw with
  | none => []
  | some data =>
    if data = "" then []
    else
      match parse data with
      | some sessions => sessions
      | none => []

/-- Source `getJournalEntries`, same read shape as `getRelapseLogs`. -/
def getJournalEntries (raw : Option String) (parse : String → Option (List JournalEntry)) :
    List JournalEntry :=
  match raw with
  | none => []
  | some data =>
    if data = "" then []
    else
      match parse data with
      | some entries => entries
      | none => []

/-- Source `addJournalEntry`: push a new entry (generated id and `Date.now()` are
the explicit `newId`/`now` parameters) onto the stored list. -/
def addJournalEntry (st : Store) (newId : String) (now : Int) (content : String)
    (relapseLogId : String) : Store × JournalEntry :=
  let newEntry : JournalEntry := ⟨newId, now, content, relapseLogId⟩
  ({ st with journalEntries := st.journalEntries ++ [newEntry] }, newEntry)

/-- Source `addRelapseLog`: push the new log, then `if (journalEntry)` (JS
truthiness: `undefined` and the empty string are falsy) additionally append
a journal entry referencing `newLog.id`. -/
def addRelapseLog (st : Store) (logId entryId : String) (now : Int)
    (replacementAction : ReplacementAction) (journalEntry : Option String) :
    Store × RelapseLog :=
  let newLog : RelapseLog := ⟨logId, now, replacementAction, journalEntry⟩
  let st1 := { st with relapseLogs := st.relapseLogs ++ [newLog] }
  let st2 :=
    match journalEntry with
    | some j => if j = "" then st1 else (addJournalEntry st1 entryId now j newLog.id).1
    | none => st1
  (st2, newLog)

/-- JS `String.prototype.trim`: drop whitespace from both ends. -/
def trimChars (cs : List Char) : List Char :=
  ((cs.dropWhile Char.isWhitespace).reverse.dropWhile Char.isWhitespace).reverse

/-- The screen expression `journalText.trim()`. -/
def strTrim (s : String) : String := String.mk (trimChars s.data)

/-- Source `handleComplete` of `ReplacementActionScreen`:
`journal = selectedAction === "writing" && journalText.trim() ?
journalText.trim() : undefined`, then `addRelapseLog(selectedAction,
journal)`. `goBack` has no storage effect. -/
def handleComplete (st : Store) (selectedAction : Option ReplacementAction)
    (journalText : String) (logId entryId : String) (now : Int) : Store :=
  match selectedAction with
  | none => st
  | some a =>
    let journal :=
      if a = ReplacementAction.writing ∧ strTrim journalText ≠ "" then
        some (strTrim journalText)
      else none
    (addRelapseLog st logId entryId now a journal).1

/-- Demo inputs for witnesses: a streak scenario (most recent log 3 days
before `demoNow`). -/
def demoNow : Int := 10 * msPerDay + 5

def demoLogs : List RelapseLog :=
  [⟨"a", 2 * msPerDay + 40, ReplacementAction.breathing, none⟩,
   ⟨"b", 7 * msPerDay + 100, ReplacementAction.physical, none⟩,
   ⟨"c", 5 * msPerDay, ReplacementAction.writing, some ("note")⟩]

/-- A log on the calendar day after `now = 0`, for the negative-streak
counterexample. -/
def futureLog : RelapseLog := ⟨"future", msPerDay, ReplacementAction.physical, none⟩

/-- Ten logs whose hourly pattern is `[0, 0, 5, 5, 0, ..., 0]`. -/
def demoRiskLogs : List RelapseLog :=
  (List.range 5).map (fun k => ⟨s!"h2x{k}", 2 * msPerHour + k, ReplacementAction.physical, none⟩) ++
  (List.range 5).map (fun k => ⟨s!"h3x{k}", 3 * msPerHour + k, ReplacementAction.physical, none⟩)

/-- Two logs in hour 23, producing a risk window that ends at 24. -/
def demoLateLogs : List RelapseLog :=
  [⟨"l1", 23 * msPerHour, ReplacementAction.physical, none⟩,
   ⟨"l2", 23 * msPerHour + 7, ReplacementAction.physical, none⟩]

/-- Weekly-pattern counterexample inputs: `now` is noon of day 0 and the
single log lies earlier on the same day. -/
def cexNow : Int := 12 * msPerHour

def cexLogs : List RelapseLog := [⟨"a", 1000, ReplacementAction.physical, none⟩]

/-- Sum of hourly counts over the hour range `[a, b)`. -/
def sumCounts (C : Nat → Nat) (a b : Nat) : Nat :=
  ((List.range' a (b - a)).map C).sum

/-- A well-formed risk window for elevation predicate `E` and hourly
counts `C`: non-empty, every hour in it elevated, its count the sum of its
hours' counts, and not extendable downward (the hour before `start`, when
there is one, is not elevated). -/
def WFWindow (E : Nat → Bool) (C : Nat → Nat) (w : RiskWindow) : Prop :=
  w.start < w.stop ∧
  (∀ h, w.start ≤ h → h < w.stop → E h = true) ∧
  w.count = sumCounts C w.start w.stop ∧
  (w.start = 0 ∨ E (w.start - 1) = false)

/-- Loop invariant of the `getRiskWindows` merge fold after the hours
`[0, a)` have been processed. -/
def RiskInv (E : Nat → Bool) (C : Nat → Nat) (a : Nat)
    (st : List RiskWindow × Option RiskWindow) : Prop :=
  (∀ w ∈ st.1, WFWindow E C w ∧ w.stop ≤ a ∧ E w.stop = false) ∧
  (∀ w, st.2 = some w → WFWindow E C w ∧ w.stop = a) ∧
  (st.2 = none → a = 0 ∨ E (a - 1) = false) ∧
  (∀ h, h < a → E h = true →
    (∃ w ∈ st.1, w.start ≤ h ∧ h < w.stop) ∨
    (∃ w, st.2 = some w ∧ w.start ≤ h ∧ h < w.stop)) ∧
  List.Pairwise (fun u v => u.stop ≤ v.start) st.1 ∧
  (∀ w, st.2 = some w → ∀ u ∈ st.1, u.stop ≤ w.start)

theorem msPerDay_val : msPerDay = 86400000 := by norm_num [msPerDay]

theorem msPerHour_val : msPerHour = 3600000 := by norm_num [msPerHour]

theorem dayIndex_def (t : Int) : dayIndex t = t / 86400000 := by
  rw [dayIndex, msPerDay_val, Int.fdiv_eq_ediv _ (by norm_num)]

theorem dayStartOf_def (t : Int) : dayStartOf t = 86400000 * (t / 86400000) := by
  rw [dayStartOf, msPerDay_val, Int.fdiv_eq_ediv _ (by norm_num)]

theorem foldl_mostRecent_spec (ls : List RelapseLog) (b : RelapseLog) :
    (ls.foldl (fun best x => if best.timestamp < x.timestamp then x else best) b = b ∨
      ls.foldl (fun best x => if best.timestamp < x.timestamp then x else best) b ∈ ls) ∧
    b.timestamp ≤
      (ls.foldl (fun best x => if best.timestamp < x.timestamp then x else best) b).timestamp ∧
    (∀ x ∈ ls,
      x.timestamp ≤
        (ls.foldl (fun best x => if best.timestamp < x.timestamp then x else best) b).timestamp) := by
  induction ls generalizing b with
  | nil => simp
  | cons y ys ih =>
    by_cases hlt : b.timestamp < y.timestamp
    · simp only [List.foldl_cons, if_pos hlt, List.mem_cons]
      obtain ⟨ihm, ihle, ihall⟩ := ih y
      refine ⟨?_, le_of_lt (lt_of_lt_of_le hlt ihle), ?_⟩
      · rcases ihm with h | h
        · exact Or.inr (Or.inl h)
        · exact Or.inr (Or.inr h)
      · intro x hx
        rcases hx with rfl | hx
        · exact ihle
        · exact ihall x hx
    · simp only [List.foldl_cons, if_neg hlt, List.mem_cons]
      obtain ⟨ihm, ihle, ihall⟩ := ih b
      refine ⟨?_, ihle, ?_⟩
      · rcases ihm with h | h
        · exact Or.inl h
        · exact Or.inr (Or.inr h)
      · intro x hx
        rcases hx with rfl | hx
        · exact le_trans (le_of_not_lt hlt) ihle
        · exact ihall x hx

theorem mostRecent_spec (logs : List RelapseLog) (hne : logs ≠ []) :
    ∃ m, mostRecent logs = some m ∧ m ∈ logs ∧ ∀ x ∈ logs, x.timestamp ≤ m.timestamp := by
  match logs with
  | [] => exact absurd rfl hne
  | l :: ls =>
    obtain ⟨hm, hle, hall⟩ := foldl_mostRecent_spec ls l
    refine ⟨_, rfl, ?_, ?_⟩
    · rcases hm with h | h
      · rw [h]; exact List.mem_cons_self l ls
      · exact List.mem_cons_of_mem l h
    · intro x hx
      rcases List.mem_cons.mp hx with rfl | hx2
      · exact hle
      · exact hall x hx2

theorem getCurrentStreak_eq (now : Int) (logs : List RelapseLog) (m : RelapseLog)
    (hne : logs ≠ []) (hm : mostRecent logs = some m) :
    getCurrentStreak now logs = dayIndex now - dayIndex m.timestamp := by
  match logs with
  | [] => exact absurd rfl hne
  | l :: ls =>
    simp only [getCurrentStreak, hm]
    rw [msPerDay_val, dayStartOf_def, dayStartOf_def, Int.fdiv_eq_ediv _ (by norm_num),
      dayIndex_def, dayIndex_def]
    omega

/-- C1: `getCurrentStreak` returns 0 on an empty list; otherwise it equals
the whole-day difference between the calendar day index of `now` and that
of the most recent log's timestamp (so a most recent entry exactly `n` days
before `now`'s date yields `n`, and a same-day entry yields 0). -/
theorem getCurrentStreak_correct (now : Int) (logs : List RelapseLog) :
    (logs = [] → getCurrentStreak now logs = 0) ∧
    (logs ≠ [] → ∃ m, mostRecent logs = some m ∧ m ∈ logs ∧
      (∀ x ∈ logs, x.timestamp ≤ m.timestamp) ∧
      getCurrentStreak now logs = dayIndex now - dayIndex m.timestamp) := by
  refine ⟨fun h => by subst h; rfl, fun hne => ?_⟩
  obtain ⟨m, hm, hmem, hall⟩ := mostRecent_spec logs hne
  exact ⟨m, hm, hmem, hall, getCurrentStreak_eq now logs m hne hm⟩

theorem getCurrentStreak_correct_witness :
    demoLogs ≠ [] ∧
    ∃ m, mostRecent demoLogs = some m ∧ m ∈ demoLogs ∧
      (∀ x ∈ demoLogs, x.timestamp ≤ m.timestamp) ∧
      getCurrentStreak demoNow demoLogs = dayIndex demoNow - dayIndex m.timestamp :=
  ⟨by decide, (getCurrentStreak_correct demoNow demoLogs).2 (by decide)⟩

/-- C10: when every log lies on or before `now`'s calendar day the streak
is non-negative, but a most recent log on a later calendar day produces a
negative streak: with `now = 0` and a single log at the next midnight the
result is -1. -/
theorem getCurrentStreak_negative_on_future (now : Int) (logs : List RelapseLog) :
    (logs ≠ [] → (∀ x ∈ logs, dayIndex x.timestamp ≤ dayIndex now) →
      0 ≤ getCurrentStreak now logs) ∧
    getCurrentStreak 0 [futureLog] = -1 := by
  refine ⟨fun hne hall => ?_, by decide⟩
  obtain ⟨m, hm, hmem, _⟩ := mostRecent_spec logs hne
  rw [getCurrentStreak_eq now logs m hne hm]
  have := hall m hmem
  omega

theorem getCurrentStreak_negative_on_future_witness :
    0 ≤ getCurrentStreak demoNow demoLogs :=
  (getCurrentStreak_negative_on_future demoNow demoLogs).1 (by decide) (by decide)

/-- C7: `getTodayRelapseCount` counts exactly the logs in the half-open
interval `[local midnight of now, midnight + 24h)`, i.e. the logs on the
same calendar day as `now`; a log at 23:59:59 of the current day counts
and a log at the next day's 00:00:00 does not. -/
theorem getTodayRelapseCount_spec (now : Int) (logs : List RelapseLog) :
    getTodayRelapseCount now logs =
      (logs.filter (fun log => decide (dayIndex log.timestamp = dayIndex now))).length ∧
    getTodayRelapseCount 0 [⟨"t1", 86399000, ReplacementAction.physical, none⟩] = 1 ∧
    getTodayRelapseCount 0 [⟨"t2", 86400000, ReplacementAction.physical, none⟩] = 0 := by
  refine ⟨?_, by decide, by decide⟩
  have hpt : (fun log : RelapseLog =>
        decide (dayStartOf now ≤ log.timestamp ∧ log.timestamp < dayStartOf now + msPerDay))
      = (fun log : RelapseLog => decide (dayIndex log.timestamp = dayIndex now)) := by
    funext log
    apply decide_eq_decide.mpr
    rw [dayStartOf_def, dayIndex_def, dayIndex_def, msPerDay_val]
    omega
  simp only [getTodayRelapseCount]
  rw [hpt]

/-- C4: the settings lock is off whenever `isFirstSetup` is true, and with
`isFirstSetup` false it is on exactly when the streak is below the unlock
threshold; with threshold 7, streak 6 is locked and streak 7 unlocked. -/
theorem isSettingsLocked_spec (s : Settings) (streak : Int) :
    (s.isFirstSetup = true → isSettingsLocked s streak = false) ∧
    (s.isFirstSetup = false →
      (isSettingsLocked s streak = true ↔ streak < s.unlockThreshold)) ∧
    isSettingsLocked ⟨30, 7, false⟩ 6 = true ∧
    isSettingsLocked ⟨30, 7, false⟩ 7 = false := by
  refine ⟨fun h => ?_, fun h => ?_, by decide, by decide⟩ <;> simp [isSettingsLocked, h]

theorem isSettingsLocked_spec_witness :
    isSettingsLocked ⟨30, 7, true⟩ (-5) = false ∧
    (isSettingsLocked ⟨30, 7, false⟩ 6 = true ↔ (6 : Int) < 7) :=
  ⟨(isSettingsLocked_spec ⟨30, 7, true⟩ (-5)).1 rfl,
   (isSettingsLocked_spec ⟨30, 7, false⟩ 6).2.1 rfl⟩

/-- C8: the three list reads return `[]`, and never surface an error, when
the stored data is missing (`getItem` returns null) or unreadable
(`JSON.parse` throws, modelled by the parser returning `none`). -/
theorem listReads_degrade_to_empty :
    (∀ p, getRelapseLogs none p = []) ∧
    (∀ s p, p s = none → getRelapseLogs (some s) p = []) ∧
    (∀ p, getFocusSessions none p = []) ∧
    (∀ s p, p s = none → getFocusSessions (some s) p = []) ∧
    (∀ p, getJournalEntries none p = []) ∧
    (∀ s p, p s = none → getJournalEntries (some s) p = []) := by
  refine ⟨fun p => rfl, fun s p h => ?_, fun p => rfl, fun s p h => ?_, fun p => rfl,
    fun s p h => ?_⟩ <;>
  · rcases eq_or_ne s ("") with hs | hs
    · simp [getRelapseLogs, getFocusSessions, getJournalEntries, hs]
    · simp [getRelapseLogs, getFocusSessions, getJournalEntries, hs, h]

theorem listReads_degrade_to_empty_witness :
    getRelapseLogs (some ("garbage")) (fun _ => none) = [] ∧
    getFocusSessions (some ("garbage")) (fun _ => none) = [] ∧
    getJournalEntries (some ("garbage")) (fun _ => none) = [] :=
  ⟨listReads_degrade_to_empty.2.1 ("garbage") (fun _ => none) rfl,
   listReads_degrade_to_empty.2.2.2.1 ("garbage") (fun _ => none) rfl,
   listReads_degrade_to_empty.2.2.2.2.2 ("garbage") (fun _ => none) rfl⟩

/-- C3 counterexample: the windows of `getWeeklyPattern` are anchored at
the midnight of `now`'s day, not at `now` itself as the claim states. With
`now` at noon of day 0 and one log earlier that same day, the code yields
counts `[0,0,0,0]` while windows ending at `now - i*7days` (the claim's
reading, `specWeeklyPattern`) would put that log in the W4 window. -/
theorem getWeeklyPattern_claim_counterexample :
    getWeeklyPattern cexNow cexLogs 4 ≠ specWeeklyPattern cexNow cexLogs 4 ∧
    (getWeeklyPattern cexNow cexLogs 4).map WeekBucket.count = [0, 0, 0, 0] ∧
    (specWeeklyPattern cexNow cexLogs 4).map WeekBucket.count = [0, 0, 0, 1] := by
  have h1 : (getWeeklyPattern cexNow cexLogs 4).map WeekBucket.count = [0, 0, 0, 0] := by decide
  have h2 : (specWeeklyPattern cexNow cexLogs 4).map WeekBucket.count = [0, 0, 0, 1] := by decide
  refine ⟨fun h => ?_, h1, h2⟩
  rw [h, h2] at h1
  exact absurd h1 (by decide)

/-- C3 (amended): `getWeeklyPattern logs 4` returns exactly 4 entries
labeled W1..W4 oldest-first, where for `i = 3` down to `0` the
corresponding entry counts the logs lying in a window of exactly `7*24`
hours that ends at the local midnight of `now`'s day minus `i*7` days
(rather than at `now - i*7days`) and starts 7 days earlier. -/
theorem getWeeklyPattern_midnight_anchored (now : Int) (logs : List RelapseLog) :
    getWeeklyPattern now logs 4 =
      [⟨"W1", (logs.filter (fun log => decide (dayStartOf now - 21 * msPerDay - 7 * msPerDay ≤
          log.timestamp ∧ log.timestamp < dayStartOf now - 21 * msPerDay))).length⟩,
       ⟨"W2", (logs.filter (fun log => decide (dayStartOf now - 14 * msPerDay - 7 * msPerDay ≤
          log.timestamp ∧ log.timestamp < dayStartOf now - 14 * msPerDay))).length⟩,
       ⟨"W3", (logs.filter (fun log => decide (dayStartOf now - 7 * msPerDay - 7 * msPerDay ≤
          log.timestamp ∧ log.timestamp < dayStartOf now - 7 * msPerDay))).length⟩,
       ⟨"W4", (logs.filter (fun log => decide (dayStartOf now - 0 * msPerDay - 7 * msPerDay ≤
          log.timestamp ∧ log.timestamp < dayStartOf now - 0 * msPerDay))).length⟩] := rfl

theorem remainingAt_def (start : Int) (d : Nat) (now : Int) :
    remainingAt start d now = max 0 ((d : Int) - (now - start) / 1000) := by
  rw [remainingAt, Int.fdiv_eq_ediv _ (by norm_num)]

theorem runTicks_inactive (ts : List Int) (s : TimerState) (h : s.intervalActive = false) :
    runTicks s ts = (s, 0) := by
  induction ts with
  | nil => rfl
  | cons t ts ih => simp [runTicks, timerTick, h, ih]

theorem runTicks_signals_le_one (ts : List Int) (s : TimerState) :
    (runTicks s ts).2 ≤ 1 := by
  induction ts generalizing s with
  | nil => simp [runTicks]
  | cons t ts ih =>
    by_cases ha : s.intervalActive
    · by_cases hr : remainingAt s.start s.totalSeconds t = 0
      · have h0 := runTicks_inactive ts
          { s with isComplete := true, intervalActive := false } rfl
        simp [runTicks, timerTick, ha, hr, h0]
      · simpa [runTicks, timerTick, ha, hr] using ih s
    · simp [runTicks_inactive (t :: ts) s (by simpa using ha)]

theorem runTicks_completes (ts : List Int) (start : Int) (d : Nat)
    (hwit : ∃ t ∈ ts, start + 1000 * (d : Int) ≤ t) :
    (runTicks ⟨start, d, false, true⟩ ts).2 = 1 ∧
    (runTicks ⟨start, d, false, true⟩ ts).1.isComplete = true ∧
    (runTicks ⟨start, d, false, true⟩ ts).1.intervalActive = false := by
  induction ts with
  | nil => simp at hwit
  | cons t ts ih =>
    by_cases hr : remainingAt start d t = 0
    · have h0 := runTicks_inactive ts
        { start := start, totalSeconds := d, isComplete := true, intervalActive := false } rfl
      simp [runTicks, timerTick, hr, h0]
    · have hlt : ¬ (start + 1000 * (d : Int) ≤ t) := by
        rw [remainingAt_def] at hr
        omega
      obtain ⟨u, hu, hule⟩ := hwit
      rcases List.mem_cons.mp hu with rfl | hu2
      · exact absurd hule hlt
      · have := ih ⟨u, hu2, hule⟩
        simpa [runTicks, timerTick, hr] using this

/-- C5: for the shared timer tick logic of the Focus Session and
Replacement Action screens, the remaining time is recomputed from the
start instant as `max(0, duration - elapsed)`, so it is never negative and
non-increasing as `now` grows; it reaches 0 exactly when `1000*duration`
milliseconds have elapsed (for duration 5 seconds, any elapsed time of 5
seconds or more); and over any tick sequence at most one completion signal
fires, with exactly one — and `isComplete` set, the interval cleared —
whenever some tick observes zero remaining time, no matter how many ticks
follow it. -/
theorem timer_completes_exactly_once (start : Int) (d : Nat) (ts : List Int)
    (now now2 : Int) :
    0 ≤ remainingAt start d now ∧
    (now ≤ now2 → remainingAt start d now2 ≤ remainingAt start d now) ∧
    (remainingAt start d now = 0 ↔ start + 1000 * (d : Int) ≤ now) ∧
    (runTicks ⟨start, d, false, true⟩ ts).2 ≤ 1 ∧
    ((∃ t ∈ ts, start + 1000 * (d : Int) ≤ t) →
      (runTicks ⟨start, d, false, true⟩ ts).2 = 1 ∧
      (runTicks ⟨start, d, false, true⟩ ts).1.isComplete = true ∧
      (runTicks ⟨start, d, false, true⟩ ts).1.intervalActive = false) := by
  refine ⟨?_, fun h => ?_, ?_, runTicks_signals_le_one ts _, runTicks_completes ts start d⟩
  · rw [remainingAt_def]; omega
  · rw [remainingAt_def, remainingAt_def]
    have := Int.ediv_le_ediv (c := 1000) (by norm_num) (show now - start ≤ now2 - start by omega)
    omega
  · rw [remainingAt_def]; omega

theorem timer_completes_exactly_once_witness :
    remainingAt 0 5 5000 = 0 ∧
    remainingAt 0 5 4999 ≤ remainingAt 0 5 2000 ∧
    (runTicks ⟨0, 5, false, true⟩ [1000, 2000, 3000, 4000, 5000, 6000, 7000]).2 = 1 ∧
    (runTicks ⟨0, 5, false, true⟩ [1000, 2000, 3000, 4000, 5000, 6000, 7000]).1.isComplete
      = true := by
  have h := timer_completes_exactly_once 0 5 [1000, 2000, 3000, 4000, 5000, 6000, 7000] 2000 4999
  refine ⟨(timer_completes_exactly_once 0 5 [] 5000 0).2.2.1.mpr (by norm_num),
    h.2.1 (by norm_num), ?_, ?_⟩
  · exact (h.2.2.2.2 ⟨5000, by norm_num, by norm_num⟩).1
  · exact (h.2.2.2.2 ⟨5000, by norm_num, by norm_num⟩).2.1

/-- C6: confirming completion of the "writing" action with text that is
non-empty after trimming appends exactly one RelapseLog (action "writing",
carrying the trimmed text) and exactly one JournalEntry whose
`relapseLogId` is that log's id; with empty or whitespace-only text the
RelapseLog is still appended but no JournalEntry is created; in both cases
no FocusSession record is written. -/
theorem handleComplete_writing_spec (st : Store) (journalText : String)
    (logId entryId : String) (now : Int) :
    (strTrim journalText ≠ "" →
      handleComplete st (some ReplacementAction.writing) journalText logId entryId now =
        { st with
            relapseLogs := st.relapseLogs ++
              [⟨logId, now, ReplacementAction.writing, some (strTrim journalText)⟩],
            journalEntries := st.journalEntries ++
              [⟨entryId, now, strTrim journalText, logId⟩] }) ∧
    (strTrim journalText = "" →
      handleComplete st (some ReplacementAction.writing) journalText logId entryId now =
        { st with relapseLogs := st.relapseLogs ++
            [⟨logId, now, ReplacementAction.writing, none⟩] }) ∧
    (handleComplete st (some ReplacementAction.writing) journalText logId entryId
        now).focusSessions = st.focusSessions := by
  refine ⟨fun hne => ?_, fun he => ?_, ?_⟩
  · simp [handleComplete, addRelapseLog, addJournalEntry, hne]
  · simp [handleComplete, addRelapseLog, addJournalEntry, he]
  · by_cases h : strTrim journalText = "" <;>
      simp [handleComplete, addRelapseLog, addJournalEntry, h]

theorem handleComplete_writing_spec_witness :
    handleComplete ⟨[], [], []⟩ (some ReplacementAction.writing) " trigger noted " "log1"
        "entry1" 42 =
      ⟨[⟨"log1", 42, ReplacementAction.writing, some ("trigger noted")⟩], [],
       [⟨"entry1", 42, "trigger noted", "log1"⟩]⟩ ∧
    handleComplete ⟨[], [], []⟩ (some ReplacementAction.writing) "   " "log2" "entry2" 43 =
      ⟨[⟨"log2", 43, ReplacementAction.writing, none⟩], [], []⟩ := by
  constructor
  · have h :=
      (handleComplete_writing_spec ⟨[], [], []⟩ " trigger noted " "log1" "entry1" 42).1
        (by decide)
    rw [h]
    decide
  · have h :=
      (handleComplete_writing_spec ⟨[], [], []⟩ "   " "log2" "entry2" 43).2.1 (by decide)
    rw [h]
    decide

theorem elevatedHour_iff_mean (total count : Nat) :
    elevatedHour total count = true ↔
      ((total : ℚ) / 24 * 1.5 < (count : ℚ) ∧ 2 ≤ count) := by
  have hq : ((total : ℚ) / 24 * 1.5 < (count : ℚ)) ↔ 3 * total < 48 * count := by
    rw [div_mul_eq_mul_div, div_lt_iff₀ (by norm_num)]
    constructor <;> intro h
    · qify
      linarith
    · qify at h
      linarith
  simp [elevatedHour, hq]

theorem sumCounts_single (C : Nat → Nat) (a : Nat) : sumCounts C a (a + 1) = C a := by
  simp [sumCounts]

theorem sumCounts_snoc (C : Nat → Nat) (a b : Nat) (h : a ≤ b) :
    sumCounts C a (b + 1) = sumCounts C a b + C b := by
  have h1 : b + 1 - a = (b - a) + 1 := by omega
  have h2 : a + (b - a) = b := by omega
  rw [sumCounts, h1]
  rw [show List.range' a (b - a + 1) = List.range' a (b - a) ++ [a + 1 * (b - a)] from
    List.range'_concat a (b - a)]
  simp [sumCounts, h2]

theorem hourOfDay_lt (t : Int) : hourOfDay t < 24 := by
  have h1 : 0 ≤ (t.fdiv msPerHour).emod 24 := Int.emod_nonneg _ (by norm_num)
  have h2 : (t.fdiv msPerHour).emod 24 < 24 := Int.emod_lt_of_pos _ (by norm_num)
  rw [hourOfDay]
  omega

theorem bumpAt_length (cs : List Nat) (h : Nat) : (bumpAt cs h).length = cs.length :=
  List.length_set cs h _

theorem bumpAt_getD (cs : List Nat) (h j : Nat) (hh : h < cs.length) :
    (bumpAt cs h).getD j 0 = cs.getD j 0 + (if j = h then 1 else 0) := by
  induction cs generalizing h j with
  | nil => simp at hh
  | cons c cs ih =>
    cases h with
    | zero =>
      cases j with
      | zero => simp [bumpAt]
      | succ j => simp [bumpAt]
    | succ h =>
      cases j with
      | zero => simp [bumpAt]
      | succ j =>
        have := ih h j (by simpa using hh)
        simpa [bumpAt] using this

theorem hourCount_cons (l : RelapseLog) (ls : List RelapseLog) (j : Nat) :
    hourCount (l :: ls) j = (if hourOfDay l.timestamp = j then 1 else 0) + hourCount ls j := by
  by_cases heq : hourOfDay l.timestamp = j <;>
    simp [hourCount, List.filter_cons, heq, Nat.add_comm]

theorem foldlBump_length (logs : List RelapseLog) (cs : List Nat) :
    (logs.foldl (fun cs log => bumpAt cs (hourOfDay log.timestamp)) cs).length = cs.length := by
  induction logs generalizing cs with
  | nil => rfl
  | cons l ls ih => rw [List.foldl_cons, ih, bumpAt_length]

theorem foldlBump_getD (logs : List RelapseLog) (cs : List Nat) (hcs : cs.length = 24)
    (j : Nat) :
    (logs.foldl (fun cs log => bumpAt cs (hourOfDay log.timestamp)) cs).getD j 0 =
      cs.getD j 0 + hourCount logs j := by
  induction logs generalizing cs with
  | nil => simp [hourCount]
  | cons l ls ih =>
    rw [List.foldl_cons,
      ih (bumpAt cs (hourOfDay l.timestamp)) (by rw [bumpAt_length]; exact hcs),
      bumpAt_getD cs _ j (by rw [hcs]; exact hourOfDay_lt _), hourCount_cons]
    by_cases heq : j = hourOfDay l.timestamp
    · rw [if_pos heq, if_pos heq.symm]
      omega
    · rw [if_neg heq, if_neg (fun hh => heq hh.symm)]
      omega

theorem hourCountsList_length (logs : List RelapseLog) : (hourCountsList logs).length = 24 := by
  rw [hourCountsList, foldlBump_length]
  simp

theorem hourCountsList_getD (logs : List RelapseLog) (j : Nat) :
    (hourCountsList logs).getD j 0 = hourCount logs j := by
  rw [hourCountsList, foldlBump_getD logs _ (by simp) j]
  have hz : (List.replicate 24 (0 : Nat)).getD j 0 = 0 := by
    rcases lt_or_ge j 24 with h | h
    · rw [List.getD_eq_getElem _ _ (by simpa using h), List.getElem_replicate]
    · rw [List.getD_eq_default]
      simpa using h
  rw [hz, Nat.zero_add]

theorem enumFrom_eq_range'_map (f : Nat → Nat) (cs : List Nat) :
    ∀ a : Nat, (∀ j, j < cs.length → cs.getD j 0 = f (a + j)) →
      cs.enumFrom a = (List.range' a cs.length).map (fun h => (h, f h)) := by
  induction cs with
  | nil => intro a _; simp
  | cons c cs ih =>
    intro a hgd
    have hc : c = f a := by simpa using hgd 0 (by simp)
    have hrec := ih (a + 1) (fun j hj => by
      have := hgd (j + 1) (by simpa using Nat.succ_lt_succ hj)
      simpa [Nat.add_assoc, Nat.add_comm 1 j] using this)
    rw [show (c :: cs).length = cs.length + 1 from rfl, List.range'_succ a cs.length 1]
    simp [List.enumFrom, hc, hrec]

theorem getHourlyPattern_eq (logs : List RelapseLog) :
    getHourlyPattern logs = (List.range' 0 24).map (fun h => (h, hourCount logs h)) := by
  have h24 := hourCountsList_length logs
  have he := enumFrom_eq_range'_map (hourCount logs) (hourCountsList logs) 0
    (fun j _ => by simpa using hourCountsList_getD logs j)
  rw [getHourlyPattern, show (hourCountsList logs).enum = (hourCountsList logs).enumFrom 0
    from rfl, he, h24]


theorem riskStep_inv (total : Nat) (C : Nat → Nat) (a : Nat)
    (st : List RiskWindow × Option RiskWindow)
    (hinv : RiskInv (fun h => elevatedHour total (C h)) C a st) :
    RiskInv (fun h => elevatedHour total (C h)) C (a + 1) (riskStep total st (a, C a)) := by
  simp only [RiskInv] at hinv ⊢
  obtain ⟨hacc, hcur, hnone, hcov, hpw, hord⟩ := hinv
  by_cases he : elevatedHour total (C a) = true
  · cases hst2 : st.2 with
    | some w =>
      obtain ⟨⟨hlt, hel, hcnt, hsb⟩, hstop⟩ := hcur w hst2
      have hwsa : w.start < a := hstop ▸ hlt
      have hred : riskStep total st (a, C a) =
          (st.1, some ⟨w.start, a + 1, w.count + C a⟩) := by
        simp [riskStep, hst2, he, hstop]
      rw [hred]
      refine ⟨?_, ?_, ?_, ?_, hpw, ?_⟩
      · intro u hu
        obtain ⟨x, y, z⟩ := hacc u hu
        exact ⟨x, y.trans (Nat.le_succ a), z⟩
      · intro u hu
        injection hu with hu
        subst hu
        refine ⟨⟨?_, ?_, ?_, ?_⟩, rfl⟩
        · show w.start < a + 1
          omega
        · intro h hh1 hh2
          have hh1' : w.start ≤ h := hh1
          have hh2' : h < a + 1 := hh2
          rcases Nat.lt_or_ge h a with hha | hha
          · exact hel h hh1' (by omega)
          · have hha' : h = a := by omega
            show elevatedHour total (C h) = true
            rw [hha']
            exact he
        · show w.count + C a = sumCounts C w.start (a + 1)
          rw [hcnt, hstop]
          exact (sumCounts_snoc C w.start a (Nat.le_of_lt hwsa)).symm
        · exact hsb
      · intro hn
        exact absurd hn (by simp)
      · intro h hh hEh
        rcases Nat.lt_or_ge h a with hha | hha
        · rcases hcov h hha hEh with ⟨u, hu, h1, h2⟩ | ⟨u, hu, h1, h2⟩
          · exact Or.inl ⟨u, hu, h1, h2⟩
          · rw [hst2] at hu
            injection hu with hu
            subst hu
            have h2' : h < a + 1 := by omega
            exact Or.inr ⟨⟨w.start, a + 1, w.count + C a⟩, rfl, h1, h2'⟩
        · have hha' : h = a := by omega
          have h1' : w.start ≤ h := by omega
          have h2' : h < a + 1 := by omega
          exact Or.inr ⟨⟨w.start, a + 1, w.count + C a⟩, rfl, h1', h2'⟩
      · intro u hu v hv
        injection hu with hu
        subst hu
        show v.stop ≤ w.start
        exact hord w hst2 v hv
    | none =>
      have hred : riskStep total st (a, C a) = (st.1, some ⟨a, a + 1, C a⟩) := by
        simp [riskStep, hst2, he]
      rw [hred]
      refine ⟨?_, ?_, ?_, ?_, hpw, ?_⟩
      · intro u hu
        obtain ⟨x, y, z⟩ := hacc u hu
        exact ⟨x, y.trans (Nat.le_succ a), z⟩
      · intro u hu
        injection hu with hu
        subst hu
        refine ⟨⟨?_, ?_, ?_, ?_⟩, rfl⟩
        · show a < a + 1
          omega
        · intro h hh1 hh2
          have hh1' : a ≤ h := hh1
          have hh2' : h < a + 1 := hh2
          have hha' : h = a := by omega
          show elevatedHour total (C h) = true
          rw [hha']
          exact he
        · show C a = sumCounts C a (a + 1)
          exact (sumCounts_single C a).symm
        · exact hnone hst2
      · intro hn
        exact absurd hn (by simp)
      · intro h hh hEh
        rcases Nat.lt_or_ge h a with hha | hha
        · rcases hcov h hha hEh with ⟨u, hu, h1, h2⟩ | ⟨u, hu, h1, h2⟩
          · exact Or.inl ⟨u, hu, h1, h2⟩
          · rw [hst2] at hu
            exact absurd hu (by simp)
        · have hha' : h = a := by omega
          have h1' : a ≤ h := by omega
          have h2' : h < a + 1 := by omega
          exact Or.inr ⟨⟨a, a + 1, C a⟩, rfl, h1', h2'⟩
      · intro u hu v hv
        injection hu with hu
        subst hu
        show v.stop ≤ a
        exact (hacc v hv).2.1
  · cases hst2 : st.2 with
    | some w =>
      obtain ⟨hwf, hstop⟩ := hcur w hst2
      have hred : riskStep total st (a, C a) = (st.1 ++ [w], none) := by
        simp [riskStep, hst2, he]
      rw [hred]
      have heb : elevatedHour total (C a) = false := by
        cases hb : elevatedHour total (C a)
        · rfl
        · exact absurd hb he
      refine ⟨?_, ?_, ?_, ?_, ?_, ?_⟩
      · intro u hu
        rcases List.mem_append.mp hu with hu | hu
        · obtain ⟨x, y, z⟩ := hacc u hu
          exact ⟨x, y.trans (Nat.le_succ a), z⟩
        · have hu' : u = w := by simpa using hu
          subst hu'
          refine ⟨hwf, hstop ▸ Nat.le_succ a, ?_⟩
          rw [hstop]
          exact heb
      · intro u hu
        exact absurd hu (by simp)
      · intro _
        refine Or.inr ?_
        simpa using heb
      · intro h hh hEh
        rcases Nat.lt_or_ge h a with hha | hha
        · rcases hcov h hha hEh with ⟨u, hu, h1, h2⟩ | ⟨u, hu, h1, h2⟩
          · exact Or.inl ⟨u, List.mem_append_left _ hu, h1, h2⟩
          · rw [hst2] at hu
            injection hu with hu
            subst hu
            exact Or.inl ⟨w, List.mem_append_right _ (by simp), h1, h2⟩
        · have hha' : h = a := by omega
          rw [hha'] at hEh
          exact absurd hEh he
      · rw [List.pairwise_append]
        refine ⟨hpw, List.pairwise_singleton _ _, ?_⟩
        intro u hu v hv
        have hv' : v = w := by simpa using hv
        rw [hv']
        exact hord w hst2 u hu
      · intro u hu
        exact absurd hu (by simp)
    | none =>
      have hred : riskStep total st (a, C a) = (st.1, none) := by
        simp [riskStep, hst2, he]
      rw [hred]
      have heb : elevatedHour total (C a) = false := by
        cases hb : elevatedHour total (C a)
        · rfl
        · exact absurd hb he
      refine ⟨?_, ?_, ?_, ?_, hpw, ?_⟩
      · intro u hu
        obtain ⟨x, y, z⟩ := hacc u hu
        exact ⟨x, y.trans (Nat.le_succ a), z⟩
      · intro u hu
        exact absurd hu (by simp)
      · intro _
        refine Or.inr ?_
        simpa using heb
      · intro h hh hEh
        rcases Nat.lt_or_ge h a with hha | hha
        · rcases hcov h hha hEh with ⟨u, hu, h1, h2⟩ | ⟨u, hu, h1, h2⟩
          · exact Or.inl ⟨u, hu, h1, h2⟩
          · rw [hst2] at hu
            exact absurd hu (by simp)
        · have hha' : h = a := by omega
          rw [hha'] at hEh
          exact absurd hEh he
      · intro u hu
        exact absurd hu (by simp)

theorem riskFold_inv (total : Nat) (C : Nat → Nat) :
    ∀ (n a : Nat) (st : List RiskWindow × Option RiskWindow),
      RiskInv (fun h => elevatedHour total (C h)) C a st →
      RiskInv (fun h => elevatedHour total (C h)) C (a + n)
        (((List.range' a n).map (fun h => (h, C h))).foldl (riskStep total) st) := by
  intro n
  induction n with
  | zero =>
    intro a st h
    simpa using h
  | succ n ih =>
    intro a st h
    rw [List.range'_succ a n 1, List.map_cons, List.foldl_cons,
      show a + (n + 1) = (a + 1) + n from by omega]
    exact ih (a + 1) (riskStep total st (a, C a)) (riskStep_inv total C a st h)

theorem riskInv_init (total : Nat) (C : Nat → Nat) :
    RiskInv (fun h => elevatedHour total (C h)) C 0 ([], none) := by
  simp only [RiskInv]
  refine ⟨by simp, by simp, by simp, ?_, by simp, by simp⟩
  intro h hh
  omega

theorem riskWindowsUnsorted_spec (logs : List RelapseLog) :
    (∀ w ∈ riskWindowsUnsorted logs,
      WFWindow (fun h => elevatedHour logs.length (hourCount logs h)) (hourCount logs) w ∧
      w.stop ≤ 24 ∧
      (w.stop = 24 ∨ elevatedHour logs.length (hourCount logs w.stop) = false)) ∧
    (∀ h, h < 24 → elevatedHour logs.length (hourCount logs h) = true →
      ∃ w ∈ riskWindowsUnsorted logs, w.start ≤ h ∧ h < w.stop) ∧
    List.Pairwise (fun u v => u.stop ≤ v.start) (riskWindowsUnsorted logs) := by
  have hinv := riskFold_inv logs.length (hourCount logs) 24 0 ([], none)
    (riskInv_init logs.length (hourCount logs))
  rw [Nat.zero_add] at hinv
  simp only [RiskInv] at hinv
  obtain ⟨hacc, hcur, _, hcov, hpw, hord⟩ := hinv
  have hdef : riskWindowsUnsorted logs =
      (((List.range' 0 24).map (fun h => (h, hourCount logs h))).foldl
        (riskStep logs.length) ([], none)).1 ++
      (match (((List.range' 0 24).map (fun h => (h, hourCount logs h))).foldl
        (riskStep logs.length) ([], none)).2 with
       | some w => [w]
       | none => []) := by
    rw [riskWindowsUnsorted, getHourlyPattern_eq]
  cases hst2 : (((List.range' 0 24).map (fun h => (h, hourCount logs h))).foldl
      (riskStep logs.length) ([], none)).2 with
  | none =>
    rw [hst2] at hdef
    refine ⟨?_, ?_, ?_⟩
    · intro w hw
      rw [hdef] at hw
      obtain ⟨h1, h2, h3⟩ := hacc w (by simpa using hw)
      exact ⟨h1, h2, Or.inr h3⟩
    · intro h hh hE
      rcases hcov h hh hE with ⟨u, hu, h1, h2⟩ | ⟨u, hu, _, _⟩
      · exact ⟨u, by rw [hdef]; simpa using hu, h1, h2⟩
      · rw [hst2] at hu
        exact absurd hu (by simp)
    · rw [hdef]
      simpa using hpw
  | some w =>
    rw [hst2] at hdef
    obtain ⟨hwwf, hwstop⟩ := hcur w hst2
    refine ⟨?_, ?_, ?_⟩
    · intro u hu
      rw [hdef] at hu
      rcases List.mem_append.mp hu with hu | hu
      · obtain ⟨h1, h2, h3⟩ := hacc u hu
        exact ⟨h1, h2, Or.inr h3⟩
      · have hu' : u = w := by simpa using hu
        subst hu'
        exact ⟨hwwf, Nat.le_of_eq hwstop, Or.inl hwstop⟩
    · intro h hh hE
      rcases hcov h hh hE with ⟨u, hu, h1, h2⟩ | ⟨u, hu, h1, h2⟩
      · exact ⟨u, by rw [hdef]; exact List.mem_append_left _ hu, h1, h2⟩
      · rw [hst2] at hu
        injection hu with hu
        subst hu
        exact ⟨w, by rw [hdef]; exact List.mem_append_right _ (by simp), h1, h2⟩
    · rw [hdef, List.pairwise_append]
      refine ⟨hpw, List.pairwise_singleton _ _, ?_⟩
      intro u hu v hv
      have hv' : v = w := by simpa using hv
      rw [hv']
      exact hord w hst2 u hu

theorem mem_insertByCount (w x : RiskWindow) (l : List RiskWindow) :
    x ∈ insertByCount w l ↔ x = w ∨ x ∈ l := by
  induction l with
  | nil => simp [insertByCount]
  | cons y ys ih =>
    by_cases h : w.count < y.count
    · simp [insertByCount, h, ih]
      tauto
    · simp [insertByCount, h, ih]

theorem mem_sortByCountDesc (x : RiskWindow) (l : List RiskWindow) :
    x ∈ sortByCountDesc l ↔ x ∈ l := by
  induction l with
  | nil => simp [sortByCountDesc]
  | cons y ys ih => simp [sortByCountDesc, mem_insertByCount, ih]

theorem pairwise_insertByCount (w : RiskWindow) (l : List RiskWindow)
    (h : List.Pairwise (fun a b => b.count ≤ a.count) l) :
    List.Pairwise (fun a b => b.count ≤ a.count) (insertByCount w l) := by
  induction l with
  | nil => simp [insertByCount]
  | cons y ys ih =>
    obtain ⟨hy, hys⟩ := List.pairwise_cons.mp h
    by_cases hc : w.count < y.count
    · rw [insertByCount, if_pos hc]
      refine List.pairwise_cons.mpr ⟨?_, ih hys⟩
      intro b hb
      rcases (mem_insertByCount w b ys).mp hb with rfl | hb
      · exact Nat.le_of_lt hc
      · exact hy b hb
    · rw [insertByCount, if_neg hc]
      refine List.pairwise_cons.mpr ⟨?_, h⟩
      intro b hb
      rcases List.mem_cons.mp hb with rfl | hb
      · omega
      · have := hy b hb
        omega

theorem sortByCountDesc_pairwise (l : List RiskWindow) :
    List.Pairwise (fun a b => b.count ≤ a.count) (sortByCountDesc l) := by
  induction l with
  | nil => simp [sortByCountDesc]
  | cons y ys ih => exact pairwise_insertByCount y _ ih

theorem filter_insertByCount (w : RiskWindow) (l : List RiskWindow) (c : Nat) :
    (insertByCount w l).filter (fun x => decide (x.count = c)) =
      (w :: l).filter (fun x => decide (x.count = c)) := by
  induction l with
  | nil => simp [insertByCount]
  | cons y ys ih =>
    by_cases hc : w.count < y.count
    · rw [insertByCount, if_pos hc]
      by_cases hyc : y.count = c
      · have hwc : ¬ w.count = c := by omega
        simp [List.filter_cons, hyc, hwc, ih]
      · simp [List.filter_cons, hyc, ih]
    · rw [insertByCount, if_neg hc]

theorem filter_sortByCountDesc (l : List RiskWindow) (c : Nat) :
    (sortByCountDesc l).filter (fun x => decide (x.count = c)) =
      l.filter (fun x => decide (x.count = c)) := by
  induction l with
  | nil => rfl
  | cons y ys ih =>
    rw [sortByCountDesc, filter_insertByCount]
    simp only [List.filter_cons, ih]

/-- C2: `getRiskWindows` flags hour `h` as elevated iff its count exceeds
`(total/24) * 1.5` and is at least 2; every returned window is a non-empty
run of elevated hours, not extendable on either side (merging is maximal),
with count the sum of its hours' counts; every elevated hour lies in some
window; the output is sorted by count descending, and ties keep the
first-found ascending-hour order (the sort permutes `riskWindowsUnsorted`,
which is in ascending hour order, without reordering equal counts); and on
hourly counts `[0,0,5,5,0,...,0]` the result is exactly one window with
start 2, end 4, count 10. -/
theorem getRiskWindows_spec (logs : List RelapseLog) :
    (∀ total count : Nat,
      elevatedHour total count = true ↔
        ((total : ℚ) / 24 * 1.5 < (count : ℚ) ∧ 2 ≤ count)) ∧
    (∀ w ∈ getRiskWindows logs,
      w.start < w.stop ∧ w.stop ≤ 24 ∧
      (∀ h, w.start ≤ h → h < w.stop →
        elevatedHour logs.length (hourCount logs h) = true) ∧
      w.count = sumCounts (hourCount logs) w.start w.stop ∧
      (w.start = 0 ∨ elevatedHour logs.length (hourCount logs (w.start - 1)) = false) ∧
      (w.stop = 24 ∨ elevatedHour logs.length (hourCount logs w.stop) = false)) ∧
    (∀ h, h < 24 → elevatedHour logs.length (hourCount logs h) = true →
      ∃ w ∈ getRiskWindows logs, w.start ≤ h ∧ h < w.stop) ∧
    List.Pairwise (fun u v => v.count ≤ u.count) (getRiskWindows logs) ∧
    List.Pairwise (fun u v => u.stop ≤ v.start) (riskWindowsUnsorted logs) ∧
    (∀ c, (getRiskWindows logs).filter (fun x => decide (x.count = c)) =
      (riskWindowsUnsorted logs).filter (fun x => decide (x.count = c))) ∧
    getRiskWindows demoRiskLogs = [⟨2, 4, 10⟩] := by
  obtain ⟨hwf, hcov, hpw⟩ := riskWindowsUnsorted_spec logs
  refine ⟨elevatedHour_iff_mean, ?_, ?_, sortByCountDesc_pairwise _, hpw,
    fun c => filter_sortByCountDesc _ c, by decide⟩
  · intro w hw
    have hw' := (mem_sortByCountDesc w _).mp hw
    obtain ⟨⟨h1, h2, h3, h4⟩, h5, h6⟩ := hwf w hw'
    exact ⟨h1, h5, h2, h3, h4, h6⟩
  · intro h hh hE
    obtain ⟨w, hw, h1, h2⟩ := hcov h hh hE
    exact ⟨w, (mem_sortByCountDesc w _).mpr hw, h1, h2⟩

theorem getRiskWindows_spec_witness :
    (⟨2, 4, 10⟩ : RiskWindow) ∈ getRiskWindows demoRiskLogs ∧
    (10 : Nat) = sumCounts (hourCount demoRiskLogs) 2 4 ∧
    elevatedHour demoRiskLogs.length (hourCount demoRiskLogs 2) = true := by
  have hm : (⟨2, 4, 10⟩ : RiskWindow) ∈ getRiskWindows demoRiskLogs := by decide
  have h := (getRiskWindows_spec demoRiskLogs).2.1 ⟨2, 4, 10⟩ hm
  exact ⟨hm, h.2.2.2.1, h.2.2.1 2 (Nat.le_refl 2) (by decide)⟩

/-- C9: every risk window that includes hour 23 has end 24 (the merge loop
never produces an end beyond 24), `formatHour 24 = "12 PM"` and
`formatHour 0 = "12 AM"`, so a window boundary at midnight is displayed as
"12 PM" rather than "12 AM". -/
theorem riskWindow_midnight_display (logs : List RelapseLog) :
    (∀ w ∈ getRiskWindows logs, w.start ≤ 23 → 23 < w.stop → w.stop = 24) ∧
    formatHour 24 = "12 PM" ∧ formatHour 0 = "12 AM" := by
  refine ⟨?_, by decide, by decide⟩
  intro w hw _ h2
  have hle := ((riskWindowsUnsorted_spec logs).1 w ((mem_sortByCountDesc w _).mp hw)).2.1
  omega

theorem riskWindow_midnight_display_witness :
    (⟨23, 24, 2⟩ : RiskWindow) ∈ getRiskWindows demoLateLogs ∧
    (⟨23, 24, 2⟩ : RiskWindow).stop = 24 := by
  have hm : (⟨23, 24, 2⟩ : RiskWindow) ∈ getRiskWindows demoLateLogs := by decide
  exact ⟨hm, (riskWindow_midnight_display demoLateLogs).1 ⟨23, 24, 2⟩ hm (by decide) (by decide)⟩
